import Mathlib

/-!
Verification of the IB-sampling patch-extraction and fold-splitting core.

The Python sources `prepare_dataset.py` and `ib_sampling/utils.py` are
shallowly embedded below: pure helper functions become Lean functions on
`Nat` / `Int` / `ℚ`, Python strings become `List Char`, NumPy volumes become
a shape together with a coordinate-indexed value function, and the seeded
NumPy shuffle (an external library collaborator) is modelled by an explicit
deterministic Fisher-Yates permutation.
-/

namespace IB

/-! ### Python `range(0, stop, step)` (for `step ≥ 1`) -/

/-- Model of Python `range(0, stop, step)` for a positive `step`:
the multiples of `step` below `stop`, in increasing order.
(Python raises on `step = 0`; this total model returns `[]` there.) -/
def pyRange (stop step : Nat) : List Nat :=
  List.range' 0 ((stop + step - 1) / step) step

theorem pyRange_zero (step : Nat) : pyRange 0 step = [] := by
  unfold pyRange
  rcases step with _ | s
  · rfl
  · have : (0 + (s + 1) - 1) / (s + 1) = 0 := by
      apply Nat.div_eq_of_lt; omega
    rw [this]
    exact List.range'_zero

theorem mem_pyRange {stop step m : Nat} (hs : 0 < step) :
    m ∈ pyRange stop step ↔ ∃ i, m = step * i ∧ m < stop := by
  unfold pyRange
  rw [List.mem_range']
  constructor
  · rintro ⟨i, hi, rfl⟩
    have h2 : (i + 1) * step ≤ stop + step - 1 :=
      (Nat.le_div_iff_mul_le hs).mp hi
    rw [Nat.succ_mul, Nat.mul_comm i step] at h2
    exact ⟨i, by omega, by omega⟩
  · rintro ⟨i, rfl, hlt⟩
    refine ⟨i, ?_, by omega⟩
    have h2 : (i + 1) * step ≤ stop + step - 1 := by
      rw [Nat.succ_mul, Nat.mul_comm i step]; omega
    exact (Nat.le_div_iff_mul_le hs).mpr h2

theorem pyRange_head (stop step : Nat) (hs : 0 < step) (h : 0 < stop) :
    (pyRange stop step).head? = some 0 := by
  unfold pyRange
  have hc : 0 < (stop + step - 1) / step := by
    apply Nat.div_pos <;> omega
  rcases hn : (stop + step - 1) / step with _ | c
  · omega
  · rw [List.range'_succ]; rfl

theorem pyRange_ne_nil (stop step : Nat) (hs : 0 < step) (h : 0 < stop) :
    pyRange stop step ≠ [] := by
  intro hnil
  have := pyRange_head stop step hs h
  rw [hnil] at this
  simp at this

/-! ### `generate_indices` (SlidingWindowIndexer, `prepare_dataset.py`) -/

/-- Embedding of `generate_indices(dim, patch, stride)`:
start indices covering `dim` using `patch` size and `stride`.
`starts[-1] != dim - patch` is rendered through `getLast?`. -/
def generate_indices (dim patch stride : Nat) : List Nat :=
  if dim ≤ patch then [0]
  else
    let starts := pyRange (dim - patch + 1) stride
    if starts.getLast? = some (dim - patch) then starts else starts ++ [dim - patch]

theorem generate_indices_small {dim patch : Nat} (stride : Nat) (h : dim ≤ patch) :
    generate_indices dim patch stride = [0] := by
  unfold generate_indices
  rw [if_pos h]

theorem mem_generate_indices {dim patch stride s : Nat} (hs : 0 < stride) (hd : patch < dim)
    (h : s ∈ generate_indices dim patch stride) : s ≤ dim - patch := by
  unfold generate_indices at h
  rw [if_neg (by omega)] at h
  by_cases hlast : (pyRange (dim - patch + 1) stride).getLast? = some (dim - patch)
  · rw [if_pos hlast] at h
    rcases (mem_pyRange hs).mp h with ⟨i, rfl, hlt⟩
    omega
  · rw [if_neg hlast] at h
    rcases List.mem_append.mp h with h' | h'
    · rcases (mem_pyRange hs).mp h' with ⟨i, rfl, hlt⟩
      omega
    · simp at h'
      omega

theorem last_mem_generate_indices {dim patch stride : Nat} (hs : 0 < stride) (hd : patch < dim) :
    (dim - patch) ∈ generate_indices dim patch stride := by
  unfold generate_indices
  rw [if_neg (by omega)]
  by_cases hlast : (pyRange (dim - patch + 1) stride).getLast? = some (dim - patch)
  · rw [if_pos hlast]
    exact List.mem_of_getLast?_eq_some hlast
  · rw [if_neg hlast]
    exact List.mem_append.mpr (Or.inr (by simp))

theorem generate_indices_head {dim patch stride : Nat} (hs : 0 < stride) (hd : patch < dim) :
    (generate_indices dim patch stride).head? = some 0 := by
  unfold generate_indices
  rw [if_neg (by omega)]
  have hne := pyRange_ne_nil (dim - patch + 1) stride hs (by omega)
  have hh := pyRange_head (dim - patch + 1) stride hs (by omega)
  by_cases hlast : (pyRange (dim - patch + 1) stride).getLast? = some (dim - patch)
  · rw [if_pos hlast]; exact hh
  · rw [if_neg hlast]
    rcases he : pyRange (dim - patch + 1) stride with _ | ⟨a, t⟩
    · exact absurd he hne
    · rw [he] at hh
      simpa using hh

theorem generate_indices_last {dim patch stride : Nat} (hs : 0 < stride) (hd : patch < dim) :
    (generate_indices dim patch stride).getLast? = some (dim - patch) := by
  unfold generate_indices
  rw [if_neg (by omega)]
  by_cases hlast : (pyRange (dim - patch + 1) stride).getLast? = some (dim - patch)
  · rw [if_pos hlast]; exact hlast
  · rw [if_neg hlast]
    simp [List.getLast?_append]

theorem generate_indices_cover {dim patch stride : Nat} (hs : 0 < stride) (hd : patch < dim)
    (hsp : stride ≤ patch) :
    ∀ i < dim, ∃ s ∈ generate_indices dim patch stride, s ≤ i ∧ i < s + patch := by
  intro i hi
  have hmod := Nat.div_add_mod i stride
  set q := i / stride with hq
  set r := i % stride with hr
  have hrlt : r < stride := Nat.mod_lt _ hs
  by_cases hcase : stride * q ≤ dim - patch
  · refine ⟨stride * q, ?_, by omega, by omega⟩
    unfold generate_indices
    rw [if_neg (by omega)]
    have hmem : stride * q ∈ pyRange (dim - patch + 1) stride :=
      (mem_pyRange hs).mpr ⟨q, rfl, by omega⟩
    by_cases hlast : (pyRange (dim - patch + 1) stride).getLast? = some (dim - patch)
    · rw [if_pos hlast]; exact hmem
    · rw [if_neg hlast]; exact List.mem_append.mpr (Or.inl hmem)
  · exact ⟨dim - patch, last_mem_generate_indices hs hd, by omega, by omega⟩

/-! ### `ensure_size` (IntervalSizeEnforcer, `prepare_dataset.py`) -/

/-- Embedding of `ensure_size(start, end, min_size, max_dim)`.
Python ints become `Int`; for the divisor `2`, Python floor division `//`
agrees with `Int` division. `end` is named `stop` (reserved word in Lean). -/
def ensure_size (start stop min_size max_dim : Int) : Int × Int :=
  let size := stop - start
  if size ≥ min_size then (start, stop)
  else
    let extra := min_size - size
    let start1 := max 0 (start - extra / 2)
    let stop1 := min max_dim (stop + (extra - extra / 2))
    if stop1 - start1 < min_size then
      if start1 = 0 then (start1, min max_dim (start1 + min_size))
      else (max 0 (stop1 - min_size), stop1)
    else (start1, stop1)

theorem ensure_size_spec (start stop min_size max_dim : Int)
    (h0 : 0 ≤ start) (h1 : start < stop) (h2 : stop ≤ max_dim) (h3 : min_size ≤ max_dim) :
    min_size ≤ (ensure_size start stop min_size max_dim).2 -
        (ensure_size start stop min_size max_dim).1 ∧
      0 ≤ (ensure_size start stop min_size max_dim).1 ∧
      (ensure_size start stop min_size max_dim).2 ≤ max_dim ∧
      (ensure_size start stop min_size max_dim).1 ≤ start ∧
      stop ≤ (ensure_size start stop min_size max_dim).2 := by
  unfold ensure_size
  have hediv : 0 ≤ min_size - (stop - start) → min_size - (stop - start) ≥ 2 * ((min_size - (stop - start)) / 2) := by
    intro h
    have := Int.ediv_add_emod (min_size - (stop - start)) 2
    have := Int.emod_nonneg (min_size - (stop - start)) (by norm_num : (2 : Int) ≠ 0)
    have := Int.emod_lt_of_pos (min_size - (stop - start)) (by norm_num : (0 : Int) < 2)
    omega
  have hediv2 : 0 ≤ min_size - (stop - start) → 0 ≤ (min_size - (stop - start)) / 2 :=
    fun h => Int.ediv_nonneg h (by norm_num)
  dsimp only
  split_ifs <;> dsimp only <;> omega

theorem ensure_size_saturates (start stop min_size max_dim : Int)
    (h0 : 0 ≤ start) (h1 : start < stop) (h2 : stop ≤ max_dim) (h3 : max_dim < min_size) :
    ensure_size start stop min_size max_dim = (0, max_dim) := by
  unfold ensure_size
  have hediv : 0 ≤ min_size - (stop - start) → min_size - (stop - start) ≥ 2 * ((min_size - (stop - start)) / 2) := by
    intro h
    have := Int.ediv_add_emod (min_size - (stop - start)) 2
    have := Int.emod_nonneg (min_size - (stop - start)) (by norm_num : (2 : Int) ≠ 0)
    have := Int.emod_lt_of_pos (min_size - (stop - start)) (by norm_num : (0 : Int) < 2)
    omega
  have hediv2 : 0 ≤ min_size - (stop - start) → 0 ≤ (min_size - (stop - start)) / 2 :=
    fun h => Int.ediv_nonneg h (by norm_num)
  dsimp only
  split_ifs <;> rw [Prod.mk.injEq] <;> constructor <;> omega

/-! ### Claims C1, C2, C9 -/

/-- C1 (counterexample): the claim asserts full coverage of `[0, dim)` for
every `stride ≥ 1`, but at `dim = 10`, `patch = 2`, `stride = 5` the returned
starts are `[0, 5, 8]` and index `2` is covered by no window. -/
theorem C1_counterexample :
    generate_indices 10 2 5 = [0, 5, 8] ∧
      ¬ (∀ i < 10, ∃ s ∈ generate_indices 10 2 5, s ≤ i ∧ i < s + 2) := by
  decide

/-- C1 (amended): for `dim > patch ≥ 1` and `stride ≥ 1` the first start is 0,
the last start is `dim - patch`, and every window stays inside `[0, dim)`;
when additionally `stride ≤ patch`, the union of the half-open windows
`[s, s + patch)` over the returned starts equals `[0, dim)`. For
`dim ≤ patch` the result is exactly `[0]`, and
`generate_indices 300 128 64 = [0, 64, 128, 172]`. -/
theorem C1_generate_indices (dim patch stride : Nat) (hp : 1 ≤ patch) (hs : 1 ≤ stride) :
    (dim ≤ patch → generate_indices dim patch stride = [0]) ∧
      (patch < dim →
        (generate_indices dim patch stride).head? = some 0 ∧
          (generate_indices dim patch stride).getLast? = some (dim - patch) ∧
          (∀ s ∈ generate_indices dim patch stride, s + patch ≤ dim) ∧
          (stride ≤ patch →
            ∀ i < dim, ∃ s ∈ generate_indices dim patch stride, s ≤ i ∧ i < s + patch)) ∧
      generate_indices 300 128 64 = [0, 64, 128, 172] := by
  refine ⟨fun h => generate_indices_small stride h, fun hd => ?_, by decide⟩
  refine ⟨generate_indices_head hs hd, generate_indices_last hs hd, ?_, ?_⟩
  · intro s hmem
    have := mem_generate_indices hs hd hmem
    omega
  · intro hsp
    exact generate_indices_cover hs hd hsp

theorem C1_generate_indices_witness :
    (generate_indices 300 128 64).head? = some 0 ∧
      (generate_indices 300 128 64).getLast? = some 172 := by
  have h := C1_generate_indices 300 128 64 (by decide) (by decide)
  have h2 := h.2.1 (by decide)
  exact ⟨h2.1, h2.2.1⟩

/-- C2: under `0 ≤ start < end ≤ max_dim` and `min_size ≤ max_dim`, the
interval returned by `ensure_size` has length at least `min_size`, stays
inside `[0, max_dim]`, and contains the original interval. -/
theorem C2_ensure_size (start stop min_size max_dim : Int)
    (h0 : 0 ≤ start) (h1 : start < stop) (h2 : stop ≤ max_dim) (h3 : min_size ≤ max_dim) :
    min_size ≤ (ensure_size start stop min_size max_dim).2 -
        (ensure_size start stop min_size max_dim).1 ∧
      0 ≤ (ensure_size start stop min_size max_dim).1 ∧
      (ensure_size start stop min_size max_dim).2 ≤ max_dim ∧
      (ensure_size start stop min_size max_dim).1 ≤ start ∧
      stop ≤ (ensure_size start stop min_size max_dim).2 :=
  ensure_size_spec start stop min_size max_dim h0 h1 h2 h3

theorem C2_ensure_size_witness :
    (128 : Int) ≤ (ensure_size 40 45 128 300).2 - (ensure_size 40 45 128 300).1 ∧
      0 ≤ (ensure_size 40 45 128 300).1 ∧ (ensure_size 40 45 128 300).2 ≤ 300 :=
  have h := C2_ensure_size 40 45 128 300 (by decide) (by decide) (by decide) (by decide)
  ⟨h.1, h.2.1, h.2.2.1⟩

/-- C9: when the axis is shorter than the requested minimum size
(`max_dim < min_size`), `ensure_size` saturates to the full axis `(0, max_dim)`. -/
theorem C9_ensure_size_saturates (start stop min_size max_dim : Int)
    (h0 : 0 ≤ start) (h1 : start < stop) (h2 : stop ≤ max_dim) (h3 : max_dim < min_size) :
    ensure_size start stop min_size max_dim = (0, max_dim) :=
  ensure_size_saturates start stop min_size max_dim h0 h1 h2 h3

theorem C9_ensure_size_saturates_witness :
    ensure_size 3 7 50 20 = (0, 20) :=
  C9_ensure_size_saturates 3 7 50 20 (by decide) (by decide) (by decide) (by decide)

/-! ### Python string operations, embedded on `List Char` -/

/-- If `pat` is a prefix of `l`, return the remainder of `l`, else `none`. -/
def stripPat : List Char → List Char → Option (List Char)
  | [], l => some l
  | _ :: _, [] => none
  | p :: ps, x :: xs => if p = x then stripPat ps xs else none

/-- Fuel-driven worker for Python `str.replace`: scan left to right,
replacing each non-overlapping occurrence of `pat` by `repl`. -/
def pyReplaceAux (pat repl : List Char) : Nat → List Char → List Char
  | 0, l => l
  | _ + 1, [] => []
  | fuel + 1, x :: xs =>
    match stripPat pat (x :: xs) with
    | some rest => repl ++ pyReplaceAux pat repl fuel rest
    | none => x :: pyReplaceAux pat repl fuel xs

/-- Python `l.replace(pat, repl)` for non-empty `pat` (both uses in the
source, stripping `".nii.gz"` and `".nii"`, have non-empty `pat`). -/
def pyReplace (l pat repl : List Char) : List Char :=
  if pat = [] then l else pyReplaceAux pat repl l.length l

/-- Python `s.split(c)` for a one-character separator (`"".split(c) = [""]`). -/
def splitOnChar (c : Char) : List Char → List (List Char)
  | [] => [[]]
  | x :: xs =>
    if x = c then [] :: splitOnChar c xs
    else
      match splitOnChar c xs with
      | [] => [[x]]
      | t :: ts => (x :: t) :: ts

/-- Python `c.join(parts)` for a one-character separator. -/
def joinChar (c : Char) : List (List Char) → List Char
  | [] => []
  | [p] => p
  | p :: ps => p ++ c :: joinChar c ps

/-- Python substring test `pat in l`. -/
def hasSub (pat : List Char) : List Char → Bool
  | [] => (stripPat pat []).isSome
  | x :: xs => (stripPat pat (x :: xs)).isSome || hasSub pat xs

/-- The character of a decimal digit. -/
def digitChar (d : Nat) : Char :=
  if d = 0 then '0' else if d = 1 then '1' else if d = 2 then '2'
  else if d = 3 then '3' else if d = 4 then '4' else if d = 5 then '5'
  else if d = 6 then '6' else if d = 7 then '7' else if d = 8 then '8' else '9'

/-- Fuel-driven decimal rendering of a natural number. -/
def natCharsAux : Nat → Nat → List Char
  | 0, n => [digitChar n]
  | fuel + 1, n =>
    if n < 10 then [digitChar n] else natCharsAux fuel (n / 10) ++ [digitChar (n % 10)]

/-- Decimal rendering of a natural number, most significant digit first. -/
def natChars (n : Nat) : List Char := natCharsAux n n

/-- Python `str.format` spec `04d`: decimal, zero-padded to width 4. -/
def fmt4 (n : Nat) : List Char :=
  List.replicate (4 - (natChars n).length) '0' ++ natChars n

/-! ### Patch filenames (`save_patch`) and patient-ID derivation -/

/-- Basename written by `save_patch` for modality `mod` of patient `pid`. -/
def patch_filename (pid mod patch_type : List Char) (idx : Nat) : List Char :=
  pid ++ ['_'] ++ mod ++ ['_'] ++ patch_type ++ ['_'] ++ fmt4 idx ++ ".nii.gz".toList

/-- Basename written by `save_patch` for the label companion of a patch. -/
def label_filename (pid patch_type : List Char) (idx : Nat) : List Char :=
  pid ++ ['_'] ++ "label".toList ++ ['_'] ++ patch_type ++ ['_'] ++ fmt4 idx ++ ".nii.gz".toList

/-- The patient-ID parsing convention: strip the volumetric extensions,
split the stem on underscores, join all tokens except the last three. -/
def parse_pid (filename : List Char) : List Char :=
  let noext := pyReplace (pyReplace filename ".nii.gz".toList []) ".nii".toList []
  let parts := splitOnChar '_' noext
  joinChar '_' (parts.take (parts.length - 3))

/-- One step of the ID-derivation loop in `train_validate_dicts`: filenames
containing `"label"` and stems with fewer than four underscore tokens are
skipped; otherwise the parsing convention yields the patient ID. -/
def derive_pid (filename : List Char) : Option (List Char) :=
  if hasSub "label".toList filename then none
  else
    let noext := pyReplace (pyReplace filename ".nii.gz".toList []) ".nii".toList []
    let parts := splitOnChar '_' noext
    if parts.length < 4 then none
    else some (joinChar '_' (parts.take (parts.length - 3)))

/-- The patient-ID corpus scan of `train_validate_dicts`, over the basenames
of the lesion and background patch files. -/
def extract_ids (files : List (List Char)) : List (List Char) :=
  files.filterMap derive_pid

/-! ### Lemmas about the string layer -/

theorem stripPat_eq_some {p l r : List Char} : stripPat p l = some r ↔ l = p ++ r := by
  induction p generalizing l with
  | nil => simp [stripPat]
  | cons p ps ih =>
    cases l with
    | nil => simp [stripPat]
    | cons x xs =>
      rcases eq_or_ne p x with h | h
      · subst h
        simp [stripPat, ih]
      · simp [stripPat, h, Ne.symm h]

theorem pyReplaceAux_nil (pat repl : List Char) (fuel : Nat) :
    pyReplaceAux pat repl fuel [] = [] := by
  cases fuel <;> rfl

theorem stripPat_cons_ne {c x : Char} (ps xs : List Char) (h : x ≠ c) :
    stripPat (c :: ps) (x :: xs) = none := by
  simp [stripPat, Ne.symm h]

theorem pyReplaceAux_no_occur {c : Char} (ps repl : List Char) :
    ∀ (fuel : Nat) (l : List Char), c ∉ l → pyReplaceAux (c :: ps) repl fuel l = l := by
  intro fuel
  induction fuel with
  | zero => intro l _; rfl
  | succ f ih =>
    intro l hl
    cases l with
    | nil => rfl
    | cons x xs =>
      have hx : x ≠ c := fun h => hl (h ▸ List.mem_cons_self x xs)
      have hxs : c ∉ xs := fun h => hl (List.mem_cons_of_mem _ h)
      rw [pyReplaceAux, stripPat_cons_ne ps xs hx]
      rw [ih xs hxs]

theorem pyReplace_no_occur {c : Char} (ps repl l : List Char) (h : c ∉ l) :
    pyReplace l (c :: ps) repl = l := by
  unfold pyReplace
  rw [if_neg (by simp)]
  exact pyReplaceAux_no_occur ps repl l.length l h

theorem pyReplaceAux_strip {c : Char} (ps : List Char) :
    ∀ (stem : List Char) (fuel : Nat), c ∉ stem →
      (stem ++ (c :: ps)).length ≤ fuel →
      pyReplaceAux (c :: ps) [] fuel (stem ++ (c :: ps)) = stem := by
  intro stem
  induction stem with
  | nil =>
    intro fuel _ hfuel
    simp at hfuel
    rcases fuel with _ | f
    · omega
    · rw [List.nil_append, pyReplaceAux,
        show stripPat (c :: ps) (c :: ps) = some [] from stripPat_eq_some.mpr (by simp)]
      dsimp only
      rw [pyReplaceAux_nil]
      rfl
  | cons s ss ih =>
    intro fuel hstem hfuel
    have hs : s ≠ c := fun h => hstem (h ▸ List.mem_cons_self s ss)
    have hss : c ∉ ss := fun h => hstem (List.mem_cons_of_mem _ h)
    rcases fuel with _ | f
    · simp at hfuel
    · rw [List.cons_append, pyReplaceAux, stripPat_cons_ne ps _ hs]
      rw [ih f hss (by simp at hfuel ⊢; omega)]

theorem pyReplace_strip {c : Char} (ps stem : List Char) (h : c ∉ stem) :
    pyReplace (stem ++ (c :: ps)) (c :: ps) [] = stem := by
  unfold pyReplace
  rw [if_neg (by simp)]
  exact pyReplaceAux_strip ps stem _ h (le_refl _)

theorem splitOnChar_nil (c : Char) : splitOnChar c [] = [[]] := rfl

theorem splitOnChar_cons_eq (c : Char) (xs : List Char) :
    splitOnChar c (c :: xs) = [] :: splitOnChar c xs := by
  simp [splitOnChar]

theorem splitOnChar_ne_nil (c : Char) (l : List Char) : splitOnChar c l ≠ [] := by
  induction l with
  | nil => simp [splitOnChar]
  | cons x xs ih =>
    by_cases h : x = c
    · subst h; simp [splitOnChar_cons_eq]
    · simp only [splitOnChar, if_neg h]
      rcases hs : splitOnChar c xs with _ | ⟨t, ts⟩
      · simp
      · simp

theorem splitOnChar_cons_ne {x c : Char} (h : x ≠ c) (xs : List Char) {t : List Char}
    {ts : List (List Char)} (hs : splitOnChar c xs = t :: ts) :
    splitOnChar c (x :: xs) = (x :: t) :: ts := by
  simp only [splitOnChar, if_neg h, hs]

theorem splitOnChar_append (c : Char) (l r : List Char) :
    splitOnChar c (l ++ c :: r) = splitOnChar c l ++ splitOnChar c r := by
  induction l with
  | nil => rw [List.nil_append, splitOnChar_cons_eq, splitOnChar_nil]; rfl
  | cons x xs ih =>
    by_cases h : x = c
    · subst h
      rw [List.cons_append, splitOnChar_cons_eq, splitOnChar_cons_eq, ih, List.cons_append]
    · rcases hs : splitOnChar c xs with _ | ⟨t, ts⟩
      · exact absurd hs (splitOnChar_ne_nil c xs)
      · rw [List.cons_append, splitOnChar_cons_ne h _ (by rw [ih, hs]; rfl),
          splitOnChar_cons_ne h _ hs]
        rfl

theorem splitOnChar_no_sep {c : Char} {m : List Char} (h : c ∉ m) : splitOnChar c m = [m] := by
  induction m with
  | nil => rfl
  | cons x xs ih =>
    have hx : x ≠ c := fun hh => h (hh ▸ List.mem_cons_self x xs)
    have hxs : c ∉ xs := fun hc => h (List.mem_cons_of_mem _ hc)
    rw [splitOnChar_cons_ne hx _ (ih hxs)]

theorem joinChar_single (c : Char) (p : List Char) : joinChar c [p] = p := rfl

theorem joinChar_pair (c : Char) (p q : List Char) (ps : List (List Char)) :
    joinChar c (p :: q :: ps) = p ++ c :: joinChar c (q :: ps) := rfl

theorem joinChar_split (c : Char) (l : List Char) : joinChar c (splitOnChar c l) = l := by
  induction l with
  | nil => rfl
  | cons x xs ih =>
    by_cases h : x = c
    · rw [h, splitOnChar_cons_eq]
      rcases hs : splitOnChar c xs with _ | ⟨t, ts⟩
      · exact absurd hs (splitOnChar_ne_nil c xs)
      · rw [hs] at ih
        rw [joinChar_pair, ih]
        rfl
    · rcases hs : splitOnChar c xs with _ | ⟨t, ts⟩
      · exact absurd hs (splitOnChar_ne_nil c xs)
      · rw [splitOnChar_cons_ne h _ hs]
        rw [hs] at ih
        cases ts with
        | nil =>
          rw [joinChar_single] at ih ⊢
          rw [ih]
        | cons u us =>
          rw [joinChar_pair] at ih ⊢
          rw [List.cons_append, ih]

theorem hasSub_append_right (pat a b : List Char) (h : hasSub pat b = true) :
    hasSub pat (a ++ b) = true := by
  induction a with
  | nil => simpa
  | cons x xs ih =>
    have hrfl : hasSub pat ((x :: xs) ++ b) =
        ((stripPat pat (x :: (xs ++ b))).isSome || hasSub pat (xs ++ b)) := rfl
    rw [hrfl, ih, Bool.or_true]

theorem hasSub_here (pat r : List Char) : hasSub pat (pat ++ r) = true := by
  cases pat with
  | nil =>
    cases r with
    | nil => rfl
    | cons y ys => simp [hasSub, stripPat]
  | cons c ps =>
    rw [List.cons_append, hasSub,
      show stripPat (c :: ps) (c :: (ps ++ r)) = some r from stripPat_eq_some.mpr rfl]
    rfl

theorem digitChar_ne (d : Nat) : digitChar d ≠ '_' ∧ digitChar d ≠ '.' := by
  unfold digitChar
  split_ifs <;> exact ⟨by decide, by decide⟩

theorem natCharsAux_chars (fuel : Nat) : ∀ (n : Nat), ∀ c ∈ natCharsAux fuel n, c ≠ '_' ∧ c ≠ '.' := by
  induction fuel with
  | zero =>
    intro n c hc
    simp [natCharsAux] at hc
    exact hc ▸ digitChar_ne n
  | succ f ih =>
    intro n c hc
    by_cases h : n < 10
    · rw [natCharsAux, if_pos h] at hc
      simp at hc
      exact hc ▸ digitChar_ne n
    · rw [natCharsAux, if_neg h] at hc
      rcases List.mem_append.mp hc with h' | h'
      · exact ih _ _ h'
      · simp at h'
        exact h' ▸ digitChar_ne _

theorem fmt4_chars {c : Char} (n : Nat) (h : c ∈ fmt4 n) : c ≠ '_' ∧ c ≠ '.' := by
  unfold fmt4 at h
  rcases List.mem_append.mp h with h' | h'
  · have := List.eq_of_mem_replicate h'
    exact this ▸ ⟨by decide, by decide⟩
  · exact natCharsAux_chars n n c h'

theorem gz_toList : ".nii.gz".toList = '.' :: "nii.gz".toList := rfl

theorem nii_toList : ".nii".toList = '.' :: "nii".toList := rfl

theorem parse_patch_roundtrip (pid mod patch_type : List Char) (idx : Nat)
    (hm : '_' ∉ mod) (hpt : '_' ∉ patch_type)
    (hdp : '.' ∉ pid) (hdm : '.' ∉ mod) (hdt : '.' ∉ patch_type) :
    parse_pid (patch_filename pid mod patch_type idx) = pid := by
  have hstem : patch_filename pid mod patch_type idx =
      (pid ++ '_' :: (mod ++ '_' :: (patch_type ++ '_' :: fmt4 idx))) ++ ".nii.gz".toList := by
    unfold patch_filename
    simp [List.append_assoc]
  have hfmtu : '_' ∉ fmt4 idx := fun h => (fmt4_chars idx h).1 rfl
  have hfmtd : '.' ∉ fmt4 idx := fun h => (fmt4_chars idx h).2 rfl
  have hdot : '.' ∉ pid ++ '_' :: (mod ++ '_' :: (patch_type ++ '_' :: fmt4 idx)) := by
    intro hc
    simp only [List.mem_append, List.mem_cons] at hc
    rcases hc with h | h | h | h | h | h | h <;>
      first
        | exact hdp h
        | exact hdm h
        | exact hdt h
        | exact hfmtd h
        | exact absurd h (by decide)
  have h1 : pyReplace (patch_filename pid mod patch_type idx) ".nii.gz".toList [] =
      pid ++ '_' :: (mod ++ '_' :: (patch_type ++ '_' :: fmt4 idx)) := by
    rw [hstem, gz_toList]
    exact pyReplace_strip _ _ hdot
  have h2 : pyReplace (pid ++ '_' :: (mod ++ '_' :: (patch_type ++ '_' :: fmt4 idx)))
      ".nii".toList [] = pid ++ '_' :: (mod ++ '_' :: (patch_type ++ '_' :: fmt4 idx)) := by
    rw [nii_toList]
    exact pyReplace_no_occur _ _ _ hdot
  have hsplit : splitOnChar '_' (pid ++ '_' :: (mod ++ '_' :: (patch_type ++ '_' :: fmt4 idx))) =
      splitOnChar '_' pid ++ [mod, patch_type, fmt4 idx] := by
    rw [splitOnChar_append, splitOnChar_append, splitOnChar_append,
      splitOnChar_no_sep hm, splitOnChar_no_sep hpt, splitOnChar_no_sep hfmtu]
    rfl
  unfold parse_pid
  dsimp only
  rw [h1, h2, hsplit]
  have h3 : (splitOnChar '_' pid ++ [mod, patch_type, fmt4 idx]).length - 3 =
      (splitOnChar '_' pid).length := by
    simp
  rw [h3, List.take_left' rfl, joinChar_split]

theorem derive_label_none (pid patch_type : List Char) (idx : Nat) :
    derive_pid (label_filename pid patch_type idx) = none := by
  have hlab : hasSub "label".toList (label_filename pid patch_type idx) = true := by
    have hshape : label_filename pid patch_type idx =
        (pid ++ ['_']) ++
          ("label".toList ++ (['_'] ++ (patch_type ++ (['_'] ++ (fmt4 idx ++ ".nii.gz".toList))))) := by
      unfold label_filename
      simp [List.append_assoc]
    rw [hshape]
    exact hasSub_append_right _ _ _ (hasSub_here _ _)
  unfold derive_pid
  rw [if_pos hlab]

/-! ### Claim C10 -/

/-- C10 (counterexample): for the modality name `"a_b"` (which contains an
underscore) the parsing convention does not recover the patient ID `"p"`:
it yields `"p_a"` instead. -/
theorem C10_counterexample :
    parse_pid (patch_filename "p".toList "a_b".toList "positive".toList 0) ≠ "p".toList ∧
      derive_pid (patch_filename "p".toList "a_b".toList "positive".toList 0) =
        some ("p_a".toList) := by
  decide

/-- C10 (amended): for every patient ID and modality name that contain no
`'.'`, where the modality name also contains no underscore, and for
`patch_type ∈ {positive, negative}` and any index, the patient-ID parsing
convention applied to the modality patch filename produced by `save_patch`
recovers exactly the patient ID; the companion label file contains the token
`"label"` and is excluded from ID derivation. -/
theorem C10_roundtrip (pid mod patch_type : List Char) (idx : Nat)
    (hpt : patch_type = "positive".toList ∨ patch_type = "negative".toList)
    (hm : '_' ∉ mod) (hdp : '.' ∉ pid) (hdm : '.' ∉ mod) :
    parse_pid (patch_filename pid mod patch_type idx) = pid ∧
      derive_pid (label_filename pid patch_type idx) = none := by
  have hptu : '_' ∉ patch_type := by
    rcases hpt with h | h <;> rw [h] <;> decide
  have hptd : '.' ∉ patch_type := by
    rcases hpt with h | h <;> rw [h] <;> decide
  exact ⟨parse_patch_roundtrip pid mod patch_type idx hm hptu hdp hdm hptd,
    derive_label_none pid patch_type idx⟩

theorem C10_roundtrip_witness :
    parse_pid (patch_filename "pat_7".toList "T1".toList "positive".toList 12) =
        "pat_7".toList ∧
      derive_pid (label_filename "pat_7".toList "positive".toList 12) = none :=
  C10_roundtrip "pat_7".toList "T1".toList "positive".toList 12 (Or.inl rfl)
    (by decide) (by decide) (by decide)

/-! ### Python string comparison and `sorted` -/

/-- Python string `<`: lexicographic comparison by character code point. -/
def strLtB : List Char → List Char → Bool
  | [], [] => false
  | [], _ :: _ => true
  | _ :: _, [] => false
  | x :: xs, y :: ys => if x < y then true else if y < x then false else strLtB xs ys

/-- Python string `≤` as a relation, for use by the sort. -/
def strLeP (a b : List Char) : Prop := strLtB b a = false

instance : DecidableRel strLeP := fun a b => by unfold strLeP; infer_instance

theorem strLtB_asymm : ∀ {a b : List Char}, strLtB a b = true → strLtB b a = false
  | [], [], h => by simp [strLtB] at h
  | [], _ :: _, _ => rfl
  | _ :: _, [], h => by simp [strLtB] at h
  | x :: xs, y :: ys, h => by
    by_cases hxy : x < y
    · have hyx : ¬ y < x := lt_asymm hxy
      simp [strLtB, hyx, hxy]
    · by_cases hyx : y < x
      · simp [strLtB, hxy, hyx] at h
      · simp only [strLtB, if_neg hxy, if_neg hyx] at h
        simp only [strLtB, if_neg hyx, if_neg hxy]
        exact strLtB_asymm h

theorem strLtB_antisymm : ∀ {a b : List Char}, strLtB a b = false → strLtB b a = false → a = b
  | [], [], _, _ => rfl
  | [], _ :: _, h, _ => by simp [strLtB] at h
  | _ :: _, [], _, h => by simp [strLtB] at h
  | x :: xs, y :: ys, h1, h2 => by
    by_cases hxy : x < y
    · simp [strLtB, hxy] at h1
    · by_cases hyx : y < x
      · simp [strLtB, hyx] at h2
      · have hxey : x = y := le_antisymm (not_lt.mp hyx) (not_lt.mp hxy)
        simp only [strLtB, if_neg hxy, if_neg hyx] at h1
        simp only [strLtB, if_neg hyx, if_neg hxy] at h2
        rw [hxey, strLtB_antisymm h1 h2]

theorem strLtB_le_trans : ∀ {a b c : List Char},
    strLtB b a = false → strLtB c b = false → strLtB c a = false
  | [], _, [], _, _ => rfl
  | [], _, _ :: _, _, _ => rfl
  | _ :: _, [], _, h1, _ => by simp [strLtB] at h1
  | _ :: _, _ :: _, [], _, h2 => by simp [strLtB] at h2
  | x :: xs, y :: ys, z :: zs, h1, h2 => by
    have hyx : ¬ y < x := by
      intro hc; simp [strLtB, hc] at h1
    have hzy : ¬ z < y := by
      intro hc; simp [strLtB, hc] at h2
    have hxy : x ≤ y := not_lt.mp hyx
    have hyz : y ≤ z := not_lt.mp hzy
    have hzx : ¬ z < x := not_lt.mpr (le_trans hxy hyz)
    by_cases hxz : x < z
    · simp [strLtB, hzx, hxz]
    · have hxez : x = z := le_antisymm (le_trans hxy hyz) (not_lt.mp hxz)
      have hnxy : ¬ x < y := by
        have hyx' : y ≤ x := le_trans hyz (le_of_eq hxez.symm)
        exact not_lt.mpr hyx'
      have hnyz : ¬ y < z := by
        have hzy' : z ≤ y := le_trans (le_of_eq hxez.symm) hxy
        exact not_lt.mpr hzy'
      simp only [strLtB, if_neg hyx, if_neg hnxy] at h1
      simp only [strLtB, if_neg hzy, if_neg hnyz] at h2
      simp only [strLtB, if_neg hzx, if_neg hxz]
      exact strLtB_le_trans h1 h2

instance : IsTrans (List Char) strLeP := ⟨fun _ _ _ h1 h2 => strLtB_le_trans h1 h2⟩

instance : IsTotal (List Char) strLeP :=
  ⟨fun a b => by
    by_cases h : strLtB b a = true
    · exact Or.inr (strLtB_asymm h)
    · exact Or.inl (by simpa using h)⟩

instance : IsAntisymm (List Char) strLeP := ⟨fun _ _ h1 h2 => strLtB_antisymm h2 h1⟩

/-- Python `sorted` on strings: the `strLeP`-sorted permutation of the list
(unique because `strLeP` is a total, antisymmetric, transitive order). -/
def pySorted (l : List (List Char)) : List (List Char) := List.insertionSort strLeP l

/-! ### The seeded shuffle (external NumPy collaborator) -/

/-- Linear-congruential step standing in for the external pseudorandom
stream. -/
def lcgNext (s : Nat) : Nat := (6364136223846793005 * s + 1442695040888963407) % (2 ^ 64)

/-- Modelled from the spec: `np.random.seed(42)` followed by
`np.random.shuffle(patient_ids)` calls the external NumPy generator, which
is out of the repository. The spec requires only a "seeded, reproducible"
shuffle, so it is modelled as a deterministic Fisher-Yates permutation
driven by `lcgNext`; no theorem below depends on which permutation the real
MT19937 stream produces, only on the shuffle being a fixed, deterministic
permutation of its input. -/
def npShuffleGo {α : Type} : Nat → Nat → List α → List α
  | 0, _, l => l
  | fuel + 1, s, l =>
    match l with
    | [] => []
    | x :: xs =>
      match (x :: xs).rotate (s % (x :: xs).length) with
      | [] => []
      | y :: ys => y :: npShuffleGo fuel (lcgNext s) ys

/-- The modelled seeded shuffle (see `npShuffleGo`). -/
def npShuffle {α : Type} (seed : Nat) (l : List α) : List α := npShuffleGo l.length seed l

theorem npShuffleGo_perm {α : Type} :
    ∀ (fuel s : Nat) (l : List α), List.Perm (npShuffleGo fuel s l) l := by
  intro fuel
  induction fuel with
  | zero => intro s l; exact List.Perm.refl l
  | succ f ih =>
    intro s l
    cases l with
    | nil => exact List.Perm.refl []
    | cons x xs =>
      have hrot : List.Perm ((x :: xs).rotate (s % (x :: xs).length)) (x :: xs) :=
        List.rotate_perm _ _
      rcases hr : (x :: xs).rotate (s % (x :: xs).length) with _ | ⟨y, ys⟩
      · rw [hr] at hrot
        have := hrot.length_eq
        simp at this
      · rw [hr] at hrot
        have h1 : npShuffleGo (f + 1) s (x :: xs) = y :: npShuffleGo f (lcgNext s) ys := by
          simp only [npShuffleGo, hr]
        rw [h1]
        exact List.Perm.trans (List.Perm.cons y (ih _ ys)) hrot

theorem npShuffle_perm {α : Type} (seed : Nat) (l : List α) : List.Perm (npShuffle seed l) l :=
  npShuffleGo_perm l.length seed l

/-! ### `train_validate_dicts` (PatientFoldSplitter, `ib_sampling/utils.py`) -/

/-- The chunking comprehension
`[patient_ids[i : i + k] for i in range(0, num_patients, k)]`. -/
def pyChunks {α : Type} (l : List α) (k : Nat) : List (List α) :=
  (pyRange l.length k).map fun i => (l.drop i).take k

/-- `folds[-2].extend(folds[-1]); folds.pop()` (only reached with at least
two folds). -/
def merge_last_two {α : Type} : List (List α) → List (List α)
  | [] => []
  | [a] => [a]
  | [a, b] => [a ++ b]
  | a :: rest => a :: merge_last_two rest

/-- The fold construction inside `train_validate_dicts`: deduplicate the
derived IDs into a set, sort for determinism, shuffle with the fixed seed
42, cut into contiguous chunks of size `max 1 (n / max_splits)`, and merge
the two tail chunks when the chunk count exceeds `max_splits`. -/
def patient_folds (ids : List (List Char)) (max_splits : Nat) : List (List (List Char)) :=
  let shuffled := npShuffle 42 (pySorted ids.dedup)
  let num_val := max 1 (shuffled.length / max_splits)
  let folds := pyChunks shuffled num_val
  if max_splits < folds.length then merge_last_two folds else folds

/-- `[p for i, fold in enumerate(folds) if i != val_fold_index for p in fold]`. -/
def train_ids {α : Type} (folds : List (List α)) (v : Nat) : List α :=
  ((folds.enum.filter fun p => p.1 != v).map Prod.snd).flatten

/-- Embedding of `train_validate_dicts`: `rng` is the state of NumPy's
global generator at call time (it is immediately overwritten by
`np.random.seed(42)`, hence unused), `files` the basenames globbed from the
two patch directories, `split` and `max_splits` the namespace attributes.
Returns the pair (train patient IDs, validation patient IDs). -/
def train_validate_dicts (rng : Nat) (files : List (List Char)) (split : Int)
    (max_splits : Nat) : List (List Char) × List (List Char) :=
  let folds := patient_folds (extract_ids files) max_splits
  let val_fold_index := ((split - 1) % (folds.length : Int)).toNat
  (train_ids folds val_fold_index, folds.getD val_fold_index [])

theorem pyChunks_cons {α : Type} {l : List α} {k : Nat} (hk : 0 < k) (hl : l ≠ []) :
    pyChunks l k = l.take k :: pyChunks (l.drop k) k := by
  have hn : 0 < l.length := List.length_pos.mpr hl
  have hcount : (l.length + k - 1) / k = ((l.length - k) + k - 1) / k + 1 := by
    rcases le_or_lt k l.length with hle | hlt
    · have h1 : l.length + k - 1 = ((l.length - k) + k - 1) + k := by omega
      rw [h1, Nat.add_div_right _ hk]
    · have h1 : (l.length + k - 1) / k = 1 :=
        Nat.div_eq_of_lt_le (by omega) (by omega)
      have h2 : l.length - k = 0 := by omega
      have h3 : (0 + k - 1) / k = 0 := Nat.div_eq_of_lt (by omega)
      rw [h1, h2, h3]
  unfold pyChunks pyRange
  rw [List.length_drop, hcount, List.range'_succ, List.map_cons, List.drop_zero,
    Nat.zero_add]
  congr 1
  have hshift : List.range' k (((l.length - k) + k - 1) / k) k =
      List.map (k + ·) (List.range' 0 (((l.length - k) + k - 1) / k) k) := by
    have h := List.map_add_range' k 0 (((l.length - k) + k - 1) / k) k
    rw [Nat.add_zero] at h
    exact h.symm
  rw [hshift, List.map_map]
  apply List.map_congr_left
  intro i _
  simp only [Function.comp_apply]
  rw [List.drop_drop]

theorem pyChunks_flatten {α : Type} {k : Nat} (hk : 0 < k) :
    ∀ (n : Nat) (l : List α), l.length ≤ n → (pyChunks l k).flatten = l := by
  intro n
  induction n with
  | zero =>
    intro l hl
    have h0 : l = [] := List.eq_nil_of_length_eq_zero (by omega)
    subst h0
    simp [pyChunks, pyRange_zero]
  | succ m ih =>
    intro l hl
    cases l with
    | nil => simp [pyChunks, pyRange_zero]
    | cons x xs =>
      rw [pyChunks_cons hk (by simp), List.flatten_cons,
        ih _ (by rw [List.length_drop]; simp at hl ⊢; omega)]
      exact List.take_append_drop k (x :: xs)

theorem pyChunks_ne_nil {α : Type} {l : List α} {k : Nat} (hk : 0 < k) (hl : l ≠ []) :
    pyChunks l k ≠ [] := by
  rw [pyChunks_cons hk hl]
  simp

theorem merge_last_two_flatten {α : Type} :
    ∀ (fs : List (List α)), (merge_last_two fs).flatten = fs.flatten
  | [] => rfl
  | [_] => rfl
  | [a, b] => by simp [merge_last_two]
  | a :: b :: c :: rest => by
    have hrec := merge_last_two_flatten (b :: c :: rest)
    have heq : merge_last_two (a :: b :: c :: rest) = a :: merge_last_two (b :: c :: rest) := rfl
    rw [heq, List.flatten_cons, hrec]
    rfl

theorem merge_last_two_ne_nil {α : Type} :
    ∀ (fs : List (List α)), fs ≠ [] → merge_last_two fs ≠ []
  | [], h => absurd rfl h
  | [_], _ => by simp [merge_last_two]
  | [_, _], _ => by simp [merge_last_two]
  | _ :: _ :: _ :: _, _ => by
    intro hc
    exact List.cons_ne_nil _ _ hc

theorem enumFrom_filter_ge {α : Type} :
    ∀ (fs : List α) (n v : Nat), v < n →
      ((List.enumFrom n fs).filter fun p => p.1 != v).map Prod.snd = fs := by
  intro fs
  induction fs with
  | nil => intro n v _; rfl
  | cons f fs ih =>
    intro n v h
    have hcons : List.enumFrom n (f :: fs) = (n, f) :: List.enumFrom (n + 1) fs := rfl
    rw [hcons, List.filter_cons_of_pos (by simp only; exact bne_iff_ne.mpr (by omega)),
      List.map_cons, ih (n + 1) v (by omega)]

theorem enumFrom_filter_eraseIdx {α : Type} :
    ∀ (fs : List α) (n i : Nat),
      ((List.enumFrom n fs).filter fun p => p.1 != (n + i)).map Prod.snd = fs.eraseIdx i := by
  intro fs
  induction fs with
  | nil => intro n i; rfl
  | cons f fs ih =>
    intro n i
    have hcons : List.enumFrom n (f :: fs) = (n, f) :: List.enumFrom (n + 1) fs := rfl
    rw [hcons]
    cases i with
    | zero =>
      rw [List.filter_cons_of_neg (by simp), List.eraseIdx_cons_zero]
      have h := enumFrom_filter_ge fs (n + 1) (n + 0) (by omega)
      exact h
    | succ j =>
      rw [List.filter_cons_of_pos (by simp only; exact bne_iff_ne.mpr (by omega)),
        List.map_cons, List.eraseIdx_cons_succ]
      congr 1
      have h := ih (n + 1) j
      rw [show n + (j + 1) = (n + 1) + j by omega]
      exact h

theorem train_ids_eq {α : Type} (fs : List (List α)) (v : Nat) :
    train_ids fs v = (fs.eraseIdx v).flatten := by
  unfold train_ids
  have h := enumFrom_filter_eraseIdx fs 0 v
  rw [Nat.zero_add] at h
  rw [show List.enum fs = List.enumFrom 0 fs from rfl, h]

theorem eraseIdx_flatten_perm {α : Type} :
    ∀ (fs : List (List α)) (v : Nat), v < fs.length →
      List.Perm ((fs.eraseIdx v).flatten ++ fs.getD v []) fs.flatten := by
  intro fs
  induction fs with
  | nil => intro v h; simp at h
  | cons f fs ih =>
    intro v hv
    cases v with
    | zero =>
      rw [List.eraseIdx_cons_zero, List.getD_cons_zero, List.flatten_cons]
      exact List.perm_append_comm
    | succ w =>
      rw [List.eraseIdx_cons_succ, List.getD_cons_succ, List.flatten_cons,
        List.flatten_cons, List.append_assoc]
      exact List.Perm.append_left f (ih w (by simpa using hv))

theorem patient_folds_flatten_perm (ids : List (List Char)) (max_splits : Nat) :
    List.Perm (patient_folds ids max_splits).flatten ids.dedup := by
  unfold patient_folds
  dsimp only
  have hperm : List.Perm (npShuffle 42 (pySorted ids.dedup)) ids.dedup :=
    (npShuffle_perm 42 _).trans (List.perm_insertionSort strLeP ids.dedup)
  have hk : 0 < max 1 ((npShuffle 42 (pySorted ids.dedup)).length / max_splits) :=
    lt_of_lt_of_le Nat.one_pos (le_max_left _ _)
  have hjoin := pyChunks_flatten (l := npShuffle 42 (pySorted ids.dedup)) hk _ (le_refl _)
  split_ifs with hc
  · rw [merge_last_two_flatten, hjoin]
    exact hperm
  · rw [hjoin]
    exact hperm

theorem patient_folds_ne_nil (ids : List (List Char)) (max_splits : Nat)
    (h : ids.dedup ≠ []) : patient_folds ids max_splits ≠ [] := by
  unfold patient_folds
  dsimp only
  have hperm : List.Perm (npShuffle 42 (pySorted ids.dedup)) ids.dedup :=
    (npShuffle_perm 42 _).trans (List.perm_insertionSort strLeP ids.dedup)
  have hne : npShuffle 42 (pySorted ids.dedup) ≠ [] := by
    intro h0
    rw [h0] at hperm
    exact h hperm.symm.eq_nil
  have hk : 0 < max 1 ((npShuffle 42 (pySorted ids.dedup)).length / max_splits) :=
    lt_of_lt_of_le Nat.one_pos (le_max_left _ _)
  split_ifs with hc
  · exact merge_last_two_ne_nil _ (pyChunks_ne_nil hk hne)
  · exact pyChunks_ne_nil hk hne

/-! ### Claims C3, C4, C5 -/

/-- C3 (violated by the code): with 9 distinct patient IDs and
`max_splits = 7` the chunk size is `max 1 (9 / 7) = 1`, the comprehension
yields 9 singleton folds, and the single tail merge only reduces this to 8
folds, which exceeds `max_splits = 7`. -/
theorem C3_fold_count_exceeded :
    (patient_folds ["a".toList, "b".toList, "c".toList, "d".toList, "e".toList,
        "f".toList, "g".toList, "h".toList, "i".toList] 7).length = 8 ∧
      ¬ ((patient_folds ["a".toList, "b".toList, "c".toList, "d".toList, "e".toList,
        "f".toList, "g".toList, "h".toList, "i".toList] 7).length ≤ 7) := by
  decide

/-- C4: for every file corpus whose derived, deduplicated patient-ID list is
non-empty, every fold index and every `max_splits ≥ 1`, the train and
validation lists returned by `train_validate_dicts` are disjoint, their
union is exactly the deduplicated patient-ID set, and no ID occurs twice
across the two lists. -/
theorem C4_partition (rng : Nat) (files : List (List Char)) (split : Int) (max_splits : Nat)
    (hms : 1 ≤ max_splits) (hne : (extract_ids files).dedup ≠ []) :
    (∀ x, x ∈ (train_validate_dicts rng files split max_splits).1 →
        x ∉ (train_validate_dicts rng files split max_splits).2) ∧
      (∀ x, (x ∈ (train_validate_dicts rng files split max_splits).1 ∨
          x ∈ (train_validate_dicts rng files split max_splits).2) ↔
        x ∈ (extract_ids files).dedup) ∧
      ((train_validate_dicts rng files split max_splits).1 ++
        (train_validate_dicts rng files split max_splits).2).Nodup := by
  have hfne : patient_folds (extract_ids files) max_splits ≠ [] :=
    patient_folds_ne_nil _ _ hne
  have hlen : 0 < (patient_folds (extract_ids files) max_splits).length :=
    List.length_pos.mpr hfne
  have hvlt : ((split - 1) % ((patient_folds (extract_ids files) max_splits).length : Int)).toNat
      < (patient_folds (extract_ids files) max_splits).length := by
    have h1 : 0 ≤ (split - 1) % ((patient_folds (extract_ids files) max_splits).length : Int) :=
      Int.emod_nonneg _ (by exact_mod_cast hlen.ne')
    have h2 : (split - 1) % ((patient_folds (extract_ids files) max_splits).length : Int) <
        ((patient_folds (extract_ids files) max_splits).length : Int) :=
      Int.emod_lt_of_pos _ (by exact_mod_cast hlen)
    omega
  have h1 : (train_validate_dicts rng files split max_splits).1 =
      train_ids (patient_folds (extract_ids files) max_splits)
        (((split - 1) % ((patient_folds (extract_ids files) max_splits).length : Int)).toNat) :=
    rfl
  have h2 : (train_validate_dicts rng files split max_splits).2 =
      (patient_folds (extract_ids files) max_splits).getD
        (((split - 1) % ((patient_folds (extract_ids files) max_splits).length : Int)).toNat) [] :=
    rfl
  have hperm : List.Perm ((train_validate_dicts rng files split max_splits).1 ++
      (train_validate_dicts rng files split max_splits).2) (extract_ids files).dedup := by
    rw [h1, h2, train_ids_eq]
    exact (eraseIdx_flatten_perm _ _ hvlt).trans (patient_folds_flatten_perm _ _)
  have hnd : ((train_validate_dicts rng files split max_splits).1 ++
      (train_validate_dicts rng files split max_splits).2).Nodup :=
    hperm.symm.nodup (List.nodup_dedup _)
  refine ⟨?_, ?_, hnd⟩
  · intro x hx1 hx2
    exact (List.nodup_append.mp hnd).2.2 hx1 hx2
  · intro x
    constructor
    · intro hx
      exact hperm.mem_iff.mp (List.mem_append.mpr hx)
    · intro hx
      exact List.mem_append.mp (hperm.mem_iff.mpr hx)

theorem C4_partition_witness :
    ((train_validate_dicts 0 ["a_T1_positive_0000.nii.gz".toList,
          "b_T1_negative_0001.nii.gz".toList] 1 2).1 ++
        (train_validate_dicts 0 ["a_T1_positive_0000.nii.gz".toList,
          "b_T1_negative_0001.nii.gz".toList] 1 2).2).Nodup :=
  (C4_partition 0 ["a_T1_positive_0000.nii.gz".toList, "b_T1_negative_0001.nii.gz".toList] 1 2
    (by decide) (by decide)).2.2

/-- C5: `train_validate_dicts` is a deterministic function of the derived
patient-ID set, the fold index and `max_splits`: the incoming state of the
global NumPy generator is irrelevant (it is overwritten by the fixed seed
42) and so is the enumeration order of the patch files (the IDs are
deduplicated and sorted before the seeded shuffle), so two independent
invocations yield identical train/validation partitions. -/
theorem C5_determinism (rng1 rng2 : Nat) (files1 files2 : List (List Char)) (split : Int)
    (max_splits : Nat)
    (h : ∀ x, x ∈ extract_ids files1 ↔ x ∈ extract_ids files2) :
    train_validate_dicts rng1 files1 split max_splits =
      train_validate_dicts rng2 files2 split max_splits := by
  have hd : List.Perm (extract_ids files1).dedup (extract_ids files2).dedup :=
    (List.perm_ext_iff_of_nodup (List.nodup_dedup _) (List.nodup_dedup _)).mpr
      (fun a => by rw [List.mem_dedup, List.mem_dedup]; exact h a)
  have hsorted : pySorted (extract_ids files1).dedup = pySorted (extract_ids files2).dedup := by
    have hp : List.Perm (pySorted (extract_ids files1).dedup)
        (pySorted (extract_ids files2).dedup) :=
      (List.perm_insertionSort strLeP _).trans
        (hd.trans (List.perm_insertionSort strLeP _).symm)
    have hs1 : List.Sorted strLeP (pySorted (extract_ids files1).dedup) :=
      List.sorted_insertionSort strLeP _
    have hs2 : List.Sorted strLeP (pySorted (extract_ids files2).dedup) :=
      List.sorted_insertionSort strLeP _
    exact List.eq_of_perm_of_sorted hp hs1 hs2
  unfold train_validate_dicts patient_folds
  rw [hsorted]

theorem C5_determinism_witness :
    train_validate_dicts 0 ["a_T1_positive_0000.nii.gz".toList,
        "b_T1_negative_0001.nii.gz".toList] 1 2 =
      train_validate_dicts 99 ["a_T1_positive_0000.nii.gz".toList,
        "b_T1_negative_0001.nii.gz".toList] 1 2 :=
  C5_determinism 0 99 _ _ 1 2 (fun _ => Iff.rfl)

/-! ### Volumes and negative windows (`process_case`) -/

/-- A 3-D volume: a shape and a coordinate-indexed value function (values
outside the shape are never read). Intensities are modelled as rationals. -/
structure Vol3 where
  dz : Nat
  dy : Nat
  dx : Nat
  val : Nat → Nat → Nat → ℚ

/-- `np.any(label[z:ze, y:ye, x:xe] > 0)`; NumPy slices clip at the array
extent. -/
def slice_any_pos (label : Vol3) (z ze y ye x xe : Nat) : Bool :=
  (List.range' z (min ze label.dz - z)).any fun i =>
    (List.range' y (min ye label.dy - y)).any fun j =>
      (List.range' x (min xe label.dx - x)).any fun k => decide (0 < label.val i j k)

/-- Every voxel of the clipped label slice is zero. -/
def slice_all_zero (label : Vol3) (z ze y ye x xe : Nat) : Prop :=
  ∀ i ∈ List.range' z (min ze label.dz - z),
    ∀ j ∈ List.range' y (min ye label.dy - y),
      ∀ k ∈ List.range' x (min xe label.dx - x), label.val i j k = 0

instance (label : Vol3) (z ze y ye x xe : Nat) :
    Decidable (slice_all_zero label z ze y ye x xe) := by
  unfold slice_all_zero
  infer_instance

/-- The triple loop over per-axis sliding-window starts in `process_case`
(outer axis 0, then axis 1, then axis 2). -/
def candidate_windows (label : Vol3) (ps st : Nat × Nat × Nat) : List (Nat × Nat × Nat) :=
  (generate_indices label.dz ps.1 st.1).flatMap fun z =>
    (generate_indices label.dy ps.2.1 st.2.1).flatMap fun y =>
      (generate_indices label.dx ps.2.2 st.2.2).map fun x => (z, y, x)

/-- The negative windows persisted by `process_case`, in iteration order: a
candidate window is kept iff `np.any(label_patch > 0)` is false; rejected
windows are skipped by `continue` (no error). -/
def negative_windows (label : Vol3) (ps st : Nat × Nat × Nat) : List (Nat × Nat × Nat) :=
  (candidate_windows label ps st).filter fun w =>
    ! slice_any_pos label w.1 (w.1 + ps.1) w.2.1 (w.2.1 + ps.2.1) w.2.2 (w.2.2 + ps.2.2)

/-- C6: over a non-negative (binary) label volume, a candidate window is
emitted as a negative patch iff no voxel of its (clipped) label sub-volume
is positive — equivalently, iff the label sub-volume is entirely zero — and
every persisted negative patch therefore has an all-zero label sub-volume.
Rejected windows are merely absent from the result (skipped, no error). -/
theorem C6_negative_patches (label : Vol3) (ps st : Nat × Nat × Nat)
    (hnn : ∀ i ∈ List.range label.dz, ∀ j ∈ List.range label.dy,
      ∀ k ∈ List.range label.dx, 0 ≤ label.val i j k) :
    (∀ w, w ∈ negative_windows label ps st ↔
        (w ∈ candidate_windows label ps st ∧
          slice_all_zero label w.1 (w.1 + ps.1) w.2.1 (w.2.1 + ps.2.1) w.2.2 (w.2.2 + ps.2.2))) ∧
      ∀ w ∈ negative_windows label ps st,
        slice_all_zero label w.1 (w.1 + ps.1) w.2.1 (w.2.1 + ps.2.1) w.2.2 (w.2.2 + ps.2.2) := by
  have key : ∀ z ze y ye x xe : Nat,
      slice_any_pos label z ze y ye x xe = false ↔ slice_all_zero label z ze y ye x xe := by
    intro z ze y ye x xe
    have hany : slice_any_pos label z ze y ye x xe = true ↔
        ∃ i ∈ List.range' z (min ze label.dz - z),
          ∃ j ∈ List.range' y (min ye label.dy - y),
            ∃ k ∈ List.range' x (min xe label.dx - x), 0 < label.val i j k := by
      simp [slice_any_pos, List.any_eq_true]
    constructor
    · intro hfalse i hi j hj k hk
      have hi' := List.mem_range'_1.mp hi
      have hj' := List.mem_range'_1.mp hj
      have hk' := List.mem_range'_1.mp hk
      have h0 : 0 ≤ label.val i j k := by
        apply hnn i (List.mem_range.mpr (by omega)) j (List.mem_range.mpr (by omega)) k
          (List.mem_range.mpr (by omega))
      by_contra hne
      have hpos : 0 < label.val i j k := lt_of_le_of_ne h0 (Ne.symm hne)
      have htrue : slice_any_pos label z ze y ye x xe = true :=
        hany.mpr ⟨i, hi, j, hj, k, hk, hpos⟩
      rw [htrue] at hfalse
      simp at hfalse
    · intro hall
      by_contra hne
      have htrue : slice_any_pos label z ze y ye x xe = true := by
        cases hb : slice_any_pos label z ze y ye x xe
        · exact absurd hb hne
        · rfl
      rcases hany.mp htrue with ⟨i, hi, j, hj, k, hk, hpos⟩
      rw [hall i hi j hj k hk] at hpos
      exact lt_irrefl 0 hpos
  have hmem : ∀ w, w ∈ negative_windows label ps st ↔
      (w ∈ candidate_windows label ps st ∧
        slice_all_zero label w.1 (w.1 + ps.1) w.2.1 (w.2.1 + ps.2.1) w.2.2 (w.2.2 + ps.2.2)) := by
    intro w
    unfold negative_windows
    rw [List.mem_filter, Bool.not_eq_true', key]
  exact ⟨hmem, fun w hw => ((hmem w).mp hw).2⟩

theorem C6_negative_patches_witness :
    (1, 0, 0) ∈ negative_windows
      (Vol3.mk 2 1 1 fun i _ _ => if i = 0 then 1 else 0) (1, 1, 1) (1, 1, 1) :=
  ((C6_negative_patches (Vol3.mk 2 1 1 fun i _ _ => if i = 0 then 1 else 0) (1, 1, 1) (1, 1, 1)
      (by decide)).1 (1, 0, 0)).mpr ⟨by decide, by decide⟩

/-! ### Positive patches (`process_case`) -/

/-- Coordinates (in C order) of the voxels of connected component `comp`,
i.e. `np.where(labeled == comp)`. The labelled array `labeled` and the
component count are the output of the external `scipy.ndimage.label` call
and enter the embedding as data. -/
def compCoords (labeled : Nat → Nat → Nat → Nat) (sh : Nat × Nat × Nat) (comp : Nat) :
    List (Nat × Nat × Nat) :=
  ((List.range sh.1).flatMap fun i =>
    (List.range sh.2.1).flatMap fun j =>
      (List.range sh.2.2).map fun k => (i, j, k)).filter fun c =>
        labeled c.1 c.2.1 c.2.2 == comp

/-- `int(c.min())` over a non-empty coordinate array. -/
def listMin : List Nat → Nat
  | [] => 0
  | [x] => x
  | x :: xs => min x (listMin xs)

/-- `int(c.max())` over a non-empty coordinate array. -/
def listMax : List Nat → Nat
  | [] => 0
  | [x] => x
  | x :: xs => max x (listMax xs)

/-- The bounding box of component `comp` computed by `process_case` before
size enforcement: per axis, the minimal bounding interval padded by
`pad = 10` on each side and clamped to the volume extent
(`max(zmin - pad, 0)` to `min(zmax + pad + 1, shape)`). -/
def pre_box (labeled : Nat → Nat → Nat → Nat) (sh : Nat × Nat × Nat) (comp : Nat) :
    (Nat × Nat) × (Nat × Nat) × (Nat × Nat) :=
  let cs := compCoords labeled sh comp
  let zmin := listMin (cs.map fun c => c.1)
  let ymin := listMin (cs.map fun c => c.2.1)
  let xmin := listMin (cs.map fun c => c.2.2)
  let zmax := listMax (cs.map fun c => c.1)
  let ymax := listMax (cs.map fun c => c.2.1)
  let xmax := listMax (cs.map fun c => c.2.2)
  ((max (zmin - 10) 0, min (zmax + 10 + 1) sh.1),
   (max (ymin - 10) 0, min (ymax + 10 + 1) sh.2.1),
   (max (xmin - 10) 0, min (xmax + 10 + 1) sh.2.2))

/-- One positive patch: its component id, its zero-based emission index, the
padded clamped box before size enforcement and the final box after
`ensure_size`. -/
structure PosPatch where
  comp : Nat
  idx : Nat
  pre : (Nat × Nat) × (Nat × Nat) × (Nat × Nat)
  box : (Int × Int) × (Int × Int) × (Int × Int)
deriving DecidableEq

/-- The positive-patch loop of `process_case`: one patch per component id
`comp ∈ [1, num]` in increasing order, `pos_idx` starting at 0 and
incremented once per component. -/
def positive_patches (labeled : Nat → Nat → Nat → Nat) (sh : Nat × Nat × Nat) (num : Nat)
    (ps : Nat × Nat × Nat) : List PosPatch :=
  (List.range num).map fun t =>
    let comp := t + 1
    let pre := pre_box labeled sh comp
    { comp := comp
      idx := t
      pre := pre
      box := (ensure_size (pre.1.1 : Int) (pre.1.2 : Int) (ps.1 : Int) (sh.1 : Int),
              ensure_size (pre.2.1.1 : Int) (pre.2.1.2 : Int) (ps.2.1 : Int) (sh.2.1 : Int),
              ensure_size (pre.2.2.1 : Int) (pre.2.2.2 : Int) (ps.2.2 : Int) (sh.2.2 : Int)) }

theorem listMin_le : ∀ {l : List Nat} {x : Nat}, x ∈ l → listMin l ≤ x := by
  intro l
  induction l with
  | nil => intro x h; cases h
  | cons a t ih =>
    intro x h
    rcases List.mem_cons.mp h with rfl | h'
    · cases t with
      | nil => exact le_refl x
      | cons b u => exact min_le_left _ _
    · cases t with
      | nil => cases h'
      | cons b u => exact le_trans (min_le_right _ _) (ih h')

theorem listMax_ge : ∀ {l : List Nat} {x : Nat}, x ∈ l → x ≤ listMax l := by
  intro l
  induction l with
  | nil => intro x h; cases h
  | cons a t ih =>
    intro x h
    rcases List.mem_cons.mp h with rfl | h'
    · cases t with
      | nil => exact le_refl x
      | cons b u => exact le_max_left _ _
    · cases t with
      | nil => cases h'
      | cons b u => exact le_trans (ih h') (le_max_right _ _)

theorem listMin_mem : ∀ {l : List Nat}, l ≠ [] → listMin l ∈ l := by
  intro l
  induction l with
  | nil => intro h; exact absurd rfl h
  | cons a t ih =>
    intro _
    cases t with
    | nil => exact List.mem_cons_self a []
    | cons b u =>
      rcases le_total a (listMin (b :: u)) with h | h
      · rw [show listMin (a :: b :: u) = min a (listMin (b :: u)) from rfl, min_eq_left h]
        exact List.mem_cons_self _ _
      · rw [show listMin (a :: b :: u) = min a (listMin (b :: u)) from rfl, min_eq_right h]
        exact List.mem_cons_of_mem _ (ih (by simp))

theorem listMax_mem : ∀ {l : List Nat}, l ≠ [] → listMax l ∈ l := by
  intro l
  induction l with
  | nil => intro h; exact absurd rfl h
  | cons a t ih =>
    intro _
    cases t with
    | nil => exact List.mem_cons_self a []
    | cons b u =>
      rcases le_total a (listMax (b :: u)) with h | h
      · rw [show listMax (a :: b :: u) = max a (listMax (b :: u)) from rfl, max_eq_right h]
        exact List.mem_cons_of_mem _ (ih (by simp))
      · rw [show listMax (a :: b :: u) = max a (listMax (b :: u)) from rfl, max_eq_left h]
        exact List.mem_cons_self _ _

theorem compCoords_lt {labeled : Nat → Nat → Nat → Nat} {sh : Nat × Nat × Nat} {comp : Nat}
    {c : Nat × Nat × Nat} (h : c ∈ compCoords labeled sh comp) :
    c.1 < sh.1 ∧ c.2.1 < sh.2.1 ∧ c.2.2 < sh.2.2 := by
  unfold compCoords at h
  rcases List.mem_filter.mp h with ⟨hmem, _⟩
  rcases List.mem_flatMap.mp hmem with ⟨i, hi, hrest⟩
  rcases List.mem_flatMap.mp hrest with ⟨j, hj, hrest2⟩
  rcases List.mem_map.mp hrest2 with ⟨k, hk, rfl⟩
  exact ⟨List.mem_range.mp hi, List.mem_range.mp hj, List.mem_range.mp hk⟩

theorem positive_patches_get (labeled : Nat → Nat → Nat → Nat) (sh : Nat × Nat × Nat)
    (num : Nat) (ps : Nat × Nat × Nat) {t : Nat} (ht : t < num) :
    ∃ p : PosPatch, (positive_patches labeled sh num ps)[t]? = some p ∧
      p.comp = t + 1 ∧ p.idx = t ∧ p.pre = pre_box labeled sh (t + 1) := by
  unfold positive_patches
  rw [List.getElem?_map, List.getElem?_range ht]
  exact ⟨_, rfl, rfl, rfl, rfl⟩

/-- C7: for every connected component `comp ∈ [1, num]` of the label mask
(its voxel set is non-empty), the box computed by `process_case` before
size enforcement equals the component's minimal per-axis bounding interval
expanded by exactly 10 voxels per side and clamped to the volume extent;
it therefore contains every voxel of the component. Components are
processed in increasing label order: component `comp` yields the positive
patch at zero-based position `comp - 1`, with patch index `comp - 1`. -/
theorem C7_positive_boxes (labeled : Nat → Nat → Nat → Nat) (sh : Nat × Nat × Nat)
    (num : Nat) (ps : Nat × Nat × Nat) (comp : Nat)
    (hc1 : 1 ≤ comp) (hc2 : comp ≤ num) (hne : compCoords labeled sh comp ≠ []) :
    (∃ zmin zmax ymin ymax xmin xmax : Nat,
      (zmin ∈ (compCoords labeled sh comp).map (fun c => c.1) ∧
        ∀ a ∈ (compCoords labeled sh comp).map (fun c => c.1), zmin ≤ a) ∧
      (zmax ∈ (compCoords labeled sh comp).map (fun c => c.1) ∧
        ∀ a ∈ (compCoords labeled sh comp).map (fun c => c.1), a ≤ zmax) ∧
      (ymin ∈ (compCoords labeled sh comp).map (fun c => c.2.1) ∧
        ∀ a ∈ (compCoords labeled sh comp).map (fun c => c.2.1), ymin ≤ a) ∧
      (ymax ∈ (compCoords labeled sh comp).map (fun c => c.2.1) ∧
        ∀ a ∈ (compCoords labeled sh comp).map (fun c => c.2.1), a ≤ ymax) ∧
      (xmin ∈ (compCoords labeled sh comp).map (fun c => c.2.2) ∧
        ∀ a ∈ (compCoords labeled sh comp).map (fun c => c.2.2), xmin ≤ a) ∧
      (xmax ∈ (compCoords labeled sh comp).map (fun c => c.2.2) ∧
        ∀ a ∈ (compCoords labeled sh comp).map (fun c => c.2.2), a ≤ xmax) ∧
      pre_box labeled sh comp =
        ((max (zmin - 10) 0, min (zmax + 10 + 1) sh.1),
         (max (ymin - 10) 0, min (ymax + 10 + 1) sh.2.1),
         (max (xmin - 10) 0, min (xmax + 10 + 1) sh.2.2))) ∧
    (∀ c ∈ compCoords labeled sh comp,
      (pre_box labeled sh comp).1.1 ≤ c.1 ∧ c.1 < (pre_box labeled sh comp).1.2 ∧
      (pre_box labeled sh comp).2.1.1 ≤ c.2.1 ∧ c.2.1 < (pre_box labeled sh comp).2.1.2 ∧
      (pre_box labeled sh comp).2.2.1 ≤ c.2.2 ∧ c.2.2 < (pre_box labeled sh comp).2.2.2) ∧
    (∃ p : PosPatch, (positive_patches labeled sh num ps)[comp - 1]? = some p ∧
      p.comp = comp ∧ p.idx = comp - 1 ∧ p.pre = pre_box labeled sh comp) := by
  have hzs : (compCoords labeled sh comp).map (fun c => c.1) ≠ [] := by
    simpa using hne
  have hys : (compCoords labeled sh comp).map (fun c => c.2.1) ≠ [] := by
    simpa using hne
  have hxs : (compCoords labeled sh comp).map (fun c => c.2.2) ≠ [] := by
    simpa using hne
  have hboxeq : pre_box labeled sh comp =
      ((max (listMin ((compCoords labeled sh comp).map fun c => c.1) - 10) 0,
        min (listMax ((compCoords labeled sh comp).map fun c => c.1) + 10 + 1) sh.1),
       (max (listMin ((compCoords labeled sh comp).map fun c => c.2.1) - 10) 0,
        min (listMax ((compCoords labeled sh comp).map fun c => c.2.1) + 10 + 1) sh.2.1),
       (max (listMin ((compCoords labeled sh comp).map fun c => c.2.2) - 10) 0,
        min (listMax ((compCoords labeled sh comp).map fun c => c.2.2) + 10 + 1) sh.2.2)) := rfl
  refine ⟨⟨listMin _, listMax _, listMin _, listMax _, listMin _, listMax _,
      ⟨listMin_mem hzs, fun a ha => listMin_le ha⟩,
      ⟨listMax_mem hzs, fun a ha => listMax_ge ha⟩,
      ⟨listMin_mem hys, fun a ha => listMin_le ha⟩,
      ⟨listMax_mem hys, fun a ha => listMax_ge ha⟩,
      ⟨listMin_mem hxs, fun a ha => listMin_le ha⟩,
      ⟨listMax_mem hxs, fun a ha => listMax_ge ha⟩, hboxeq⟩, ?_, ?_⟩
  · intro c hc
    have hlt := compCoords_lt hc
    have h1 : listMin ((compCoords labeled sh comp).map fun c => c.1) ≤ c.1 :=
      listMin_le (List.mem_map_of_mem _ hc)
    have h2 : c.1 ≤ listMax ((compCoords labeled sh comp).map fun c => c.1) :=
      listMax_ge (List.mem_map_of_mem _ hc)
    have h3 : listMin ((compCoords labeled sh comp).map fun c => c.2.1) ≤ c.2.1 :=
      listMin_le (List.mem_map_of_mem _ hc)
    have h4 : c.2.1 ≤ listMax ((compCoords labeled sh comp).map fun c => c.2.1) :=
      listMax_ge (List.mem_map_of_mem _ hc)
    have h5 : listMin ((compCoords labeled sh comp).map fun c => c.2.2) ≤ c.2.2 :=
      listMin_le (List.mem_map_of_mem _ hc)
    have h6 : c.2.2 ≤ listMax ((compCoords labeled sh comp).map fun c => c.2.2) :=
      listMax_ge (List.mem_map_of_mem _ hc)
    rw [hboxeq]
    dsimp only
    refine ⟨by omega, by omega, by omega, by omega, by omega, by omega⟩
  · have ht : comp - 1 < num := by omega
    rcases positive_patches_get labeled sh num ps ht with ⟨p, hp, hpc, hpi, hppre⟩
    rw [show comp - 1 + 1 = comp from by omega] at hpc hppre
    exact ⟨p, hp, hpc, hpi, hppre⟩

theorem C7_positive_boxes_witness :
    (pre_box (fun i j k => if i = 1 ∧ j = 1 ∧ k = 1 then 1 else 0) (3, 3, 3) 1).1.1 ≤ 1 ∧
      1 < (pre_box (fun i j k => if i = 1 ∧ j = 1 ∧ k = 1 then 1 else 0) (3, 3, 3) 1).1.2 ∧
      (pre_box (fun i j k => if i = 1 ∧ j = 1 ∧ k = 1 then 1 else 0) (3, 3, 3) 1).2.1.1 ≤ 1 ∧
      1 < (pre_box (fun i j k => if i = 1 ∧ j = 1 ∧ k = 1 then 1 else 0) (3, 3, 3) 1).2.1.2 ∧
      (pre_box (fun i j k => if i = 1 ∧ j = 1 ∧ k = 1 then 1 else 0) (3, 3, 3) 1).2.2.1 ≤ 1 ∧
      1 < (pre_box (fun i j k => if i = 1 ∧ j = 1 ∧ k = 1 then 1 else 0) (3, 3, 3) 1).2.2.2 :=
  (C7_positive_boxes (fun i j k => if i = 1 ∧ j = 1 ∧ k = 1 then 1 else 0) (3, 3, 3) 1 (2, 2, 2) 1
    (by decide) (by decide) (by decide)).2.1 (1, 1, 1) (by decide)

/-! ### `normalize_volume` (VolumeNormalizer, `prepare_dataset.py`) -/

/-- Row-major flattening of the in-shape values (NumPy C order). -/
def flattenVol (v : Vol3) : List ℚ :=
  (List.range v.dz).flatMap fun i =>
    (List.range v.dy).flatMap fun j =>
      (List.range v.dx).map fun k => v.val i j k

/-- `np.percentile(xs, q)` with the default linear interpolation between the
two bracketing order statistics of the sorted values. -/
def npPercentile (q : ℚ) (xs : List ℚ) : ℚ :=
  let s := List.insertionSort (fun a b : ℚ => a ≤ b) xs
  let n := s.length
  let pos := q * ((n : ℚ) - 1) / 100
  let i := (⌊pos⌋ : Int).toNat
  let lo := s.getD i 0
  let hi := s.getD (min (i + 1) (n - 1)) 0
  lo + (pos - (⌊pos⌋ : Int)) * (hi - lo)

/-- Embedding of `normalize_volume`: clip to the 1st and 99th percentiles
and rescale to `[0, 1]`; a degenerate (flat) volume maps to all zeros.
`np.clip(x, lo, hi)` is elementwise `min hi (max lo x)`. -/
def normalize_volume (v : Vol3) : Vol3 :=
  let p1 := npPercentile 1 (flattenVol v)
  let p99 := npPercentile 99 (flattenVol v)
  if p99 ≤ p1 then { v with val := fun _ _ _ => 0 }
  else { v with val := fun i j k => (min p99 (max p1 (v.val i j k)) - p1) / (p99 - p1) }

/-- C8: `normalize_volume` preserves the shape; when the 99th percentile is
at most the 1st it returns the all-zero volume (the defined policy for flat
input, not an error); otherwise each value is the input clipped to
`[p1, p99]` and linearly rescaled; and in all cases every value lies in
`[0, 1]`. (Purity is inherent to the embedding: the result is a new volume,
a function of the input alone.) -/
theorem C8_normalize (v : Vol3) :
    ((normalize_volume v).dz = v.dz ∧ (normalize_volume v).dy = v.dy ∧
      (normalize_volume v).dx = v.dx) ∧
    (npPercentile 99 (flattenVol v) ≤ npPercentile 1 (flattenVol v) →
      ∀ i j k, (normalize_volume v).val i j k = 0) ∧
    (¬ npPercentile 99 (flattenVol v) ≤ npPercentile 1 (flattenVol v) →
      ∀ i j k, (normalize_volume v).val i j k =
        (min (npPercentile 99 (flattenVol v))
            (max (npPercentile 1 (flattenVol v)) (v.val i j k)) -
          npPercentile 1 (flattenVol v)) /
        (npPercentile 99 (flattenVol v) - npPercentile 1 (flattenVol v))) ∧
    (∀ i j k, 0 ≤ (normalize_volume v).val i j k ∧ (normalize_volume v).val i j k ≤ 1) := by
  unfold normalize_volume
  dsimp only
  by_cases hdeg : npPercentile 99 (flattenVol v) ≤ npPercentile 1 (flattenVol v)
  · rw [if_pos hdeg]
    exact ⟨⟨rfl, rfl, rfl⟩, fun _ _ _ _ => rfl, fun hc => absurd hdeg hc,
      fun _ _ _ => ⟨le_refl 0, by norm_num⟩⟩
  · rw [if_neg hdeg]
    have hlt : npPercentile 1 (flattenVol v) < npPercentile 99 (flattenVol v) :=
      not_le.mp hdeg
    have hden : 0 < npPercentile 99 (flattenVol v) - npPercentile 1 (flattenVol v) := by
      linarith
    refine ⟨⟨rfl, rfl, rfl⟩, fun hc => absurd hc hdeg, fun _ i j k => rfl, fun i j k => ?_⟩
    have hclip_lo : npPercentile 1 (flattenVol v) ≤
        min (npPercentile 99 (flattenVol v))
          (max (npPercentile 1 (flattenVol v)) (v.val i j k)) :=
      le_min (le_of_lt hlt) (le_max_left _ _)
    have hclip_hi : min (npPercentile 99 (flattenVol v))
        (max (npPercentile 1 (flattenVol v)) (v.val i j k)) ≤
          npPercentile 99 (flattenVol v) :=
      min_le_left _ _
    constructor
    · apply div_nonneg (by linarith) (le_of_lt hden)
    · rw [div_le_one hden]
      linarith

theorem C8_normalize_witness :
    (normalize_volume (Vol3.mk 1 1 2 fun _ _ _ => 5)).val 0 0 0 = 0 ∧
      (0 ≤ (normalize_volume (Vol3.mk 1 1 2 fun _ _ _ => 5)).val 0 0 1 ∧
        (normalize_volume (Vol3.mk 1 1 2 fun _ _ _ => 5)).val 0 0 1 ≤ 1) :=
  ⟨(C8_normalize (Vol3.mk 1 1 2 fun _ _ _ => 5)).2.1 (by with_unfolding_all decide) 0 0 0,
    (C8_normalize (Vol3.mk 1 1 2 fun _ _ _ => 5)).2.2.2 0 0 1⟩

end IB
